import Mathlib

/-!
Shallow embedding of the windowed feature-extraction and classification
pipeline of the repository (src/profiling.py and src/classification.py),
together with theorems settling the frozen claims about it.

Conventions of the embedding:
* a numpy 2-d array of per-interval samples is a `List α` of atomic rows;
* Python / numpy errors (ZeroDivisionError, ValueError, IndexError, KeyError)
  are modelled by `Except PyError`;
* Python `int(x / y)` on numbers is truncation toward zero, `Int.tdiv`;
* float results of `/` are modelled exactly by `ℚ`, with `none : Option ℚ`
  standing for the non-finite junk (NaN or inf) numpy produces on a zero
  denominator.
-/

/-- Error values raised by the Python runtime or numpy. -/
inductive PyError where
  | zeroDivision
  | valueError
  | indexError
  | keyError
deriving DecidableEq, Repr

/-- Decidable test that an `Except` computation failed. -/
def isPyError {β : Type} : Except PyError β → Bool
  | .error _ => true
  | .ok _ => false

/-- Python slicing `l[:t]` for a possibly negative bound `t`. -/
def sliceTo {α : Type} (l : List α) (t : Int) : List α :=
  if 0 ≤ t then l.take t.toNat else l.take (l.length - t.natAbs)

/-- Python slicing `l[t:]` for a possibly negative bound `t`. -/
def sliceFrom {α : Type} (l : List α) (t : Int) : List α :=
  if 0 ≤ t then l.drop t.toNat else l.drop (l.length - t.natAbs)

/-- Python `int(q)`: truncation of an exact rational toward zero. -/
def pyIntTrunc (q : ℚ) : Int := Int.tdiv q.num q.den

/-- Split a list into consecutive chunks of `k` elements (the final chunk is
shorter when `k` does not divide the length; the callers below only use it
for exact multiples). -/
def chunkList {α : Type} (k : Nat) (l : List α) : List (List α) :=
  if _h : l.isEmpty ∨ k = 0 then [] else l.take k :: chunkList k (l.drop k)
termination_by l.length
decreasing_by
  simp only [List.isEmpty_iff, not_or] at _h
  rcases _h with ⟨h1, h2⟩
  have : l.length ≠ 0 := fun hl => h1 (List.eq_nil_of_length_eq_zero hl)
  simp only [List.length_drop]
  omega

/-- numpy `data.reshape((d0, d1, n_cols))` on a row-atomic 2-d array, viewed
as regrouping the row list into `d0` chunks of `d1` rows.  numpy treats a
negative `d0` as a dimension to infer (possible only when `d1` divides the
row count); for a non-negative `d0` the row count must be exactly `d0 * d1`.
A size mismatch raises ValueError. -/
def npReshapeRows {α : Type} (l : List α) (d0 : Int) (d1 : Nat) :
    Except PyError (List (List α)) :=
  if d0 < 0 then
    if d1 ≠ 0 ∧ l.length % d1 = 0 then .ok (chunkList d1 l) else .error .valueError
  else
    if l.length = d0.toNat * d1 then .ok (chunkList d1 l) else .error .valueError

/-- numpy fancy indexing `l[idxs]` along the first axis: every index must be
in range. -/
def fancyIndex {β : Type} (l : List β) : List Nat → Option (List β)
  | [] => some []
  | i :: is =>
    match l[i]?, fancyIndex l is with
    | some v, some vs => some (v :: vs)
    | _, _ => none

/-- src/profiling.py lines 59-79, `break_train_test`.  The permutation drawn
by `np.random.permutation` in the `random_split` case is supplied as the
oracle argument `perm`; with `random_split = false` the source uses
`np.arange(n_obs_windows)`.

Source correspondence, line by line:
* `window_size = int(obs_window / slide_window)` raises ZeroDivisionError
  when `slide_window = 0`, otherwise truncates (`Nat` division);
* `n_obs_windows = int((n_samples - obs_window) / slide_window)` truncates
  toward zero, `Int.tdiv`;
* `data = data[:n_samples, :]` is `sliceTo`;
* `data.reshape((n_slide_windows, slide_window, n_cols))` is
  `npReshapeRows`;
* `np.concatenate(data_slices[i:window_size+i])` raises ValueError when the
  slice is empty, which happens (for `i < n_obs_windows`) exactly when
  `window_size = 0`;
* `np.array([...])` over an empty comprehension gives a 1-d empty array, so
  the later 3-index fancy indexing `data_obs[order[:k], :, :]` raises
  IndexError whenever `n_obs_windows <= 0`;
* `np.random.permutation(n)` raises ValueError for negative `n`. -/
def break_train_test {α : Type} (data : List α) (obs_window slide_window : Nat)
    (train_percentage : ℚ) (random_split : Bool) (perm : List Nat) :
    Except PyError (List (List α) × List (List α)) :=
  if slide_window = 0 then .error .zeroDivision else
  let window_size : Nat := obs_window / slide_window
  let n_samples : Nat := data.length
  let n_obs_windows : Int := Int.tdiv ((n_samples : Int) - (obs_window : Int)) (slide_window : Int)
  let n_samples2 : Int := (n_obs_windows - 1) * (slide_window : Int) + (obs_window : Int)
  let n_slide_windows : Int := n_obs_windows + (window_size : Int) - 1
  let data2 := sliceTo data n_samples2
  match npReshapeRows data2 n_slide_windows slide_window with
  | .error e => .error e
  | .ok data_slices =>
    if 0 < n_obs_windows ∧ window_size = 0 then .error .valueError else
    let data_obs : List (List α) :=
      (List.range n_obs_windows.toNat).map
        (fun i => ((data_slices.drop i).take window_size).flatten)
    if random_split ∧ n_obs_windows < 0 then .error .valueError else
    let order : List Nat := if random_split then perm else List.range n_obs_windows.toNat
    let n_train_windows : Int := pyIntTrunc ((n_obs_windows : ℚ) * train_percentage)
    if data_obs.isEmpty then .error .indexError else
    match fancyIndex data_obs (sliceTo order n_train_windows),
          fancyIndex data_obs (sliceFrom order n_train_windows) with
    | some data_train, some data_test => .ok (data_train, data_test)
    | _, _ => .error .indexError

/-- Increment the last element of a list, Python `s[-1] += 1` (the callers
below only reach it with a non-empty `s`). -/
def incLast : List Nat → List Nat
  | [] => []
  | [a] => [a + 1]
  | a :: b :: rest => a :: incLast (b :: rest)

/-- The loop of src/profiling.py lines 100-105: scan the remaining samples,
opening a new silence run of length 1 whenever a sample at or below the
threshold follows one above it, and extending the current run otherwise.
`prev` is `data[i-1]`. -/
def silenceLoop (threshold : Int) : Int → List Nat → List Int → List Nat
  | _, s, [] => s
  | prev, s, x :: rest =>
    if x ≤ threshold then
      if prev > threshold then silenceLoop threshold x (s ++ [1]) rest
      else silenceLoop threshold x (incLast s) rest
    else silenceLoop threshold x s rest

/-- src/profiling.py lines 97-107, `extract_silence`: the list of maximal
run lengths of consecutive samples at or below `threshold`, with `[0]` when
there is no such sample.  `data[0]` raises IndexError on an empty window. -/
def extract_silence (data : List Int) (threshold : Int) : Except PyError (List Nat) :=
  match data with
  | [] => .error .indexError
  | d :: rest =>
    let s0 : List Nat := if d ≤ threshold then [1] else []
    let s := silenceLoop threshold d s0 rest
    .ok (if s = [] then [0] else s)

/-- numpy `np.mean` of a list of run lengths, exact over `ℚ` (the callers
below only use it on non-empty lists). -/
def pyMean (l : List Nat) : ℚ := ((l.map (fun x => (x : ℚ))).sum) / (l.length : ℚ)

/-- numpy `np.var` (population variance) of a list of run lengths. -/
def pyVar (l : List Nat) : ℚ :=
  ((l.map (fun x => ((x : ℚ) - pyMean l) ^ 2)).sum) / (l.length : ℚ)

/-- src/profiling.py lines 118-120: the `{mean, variance}` pair of the
silence-run lengths of one window column. -/
def silence_feature_pair (col : List Int) (threshold : Int) : Except PyError (ℚ × ℚ) :=
  match extract_silence col threshold with
  | .error e => .error e
  | .ok s => .ok (pyMean s, pyVar s)

/-- Column `c` of a row-major window, `data[i, :, c]` (rows are assumed
rectangular by numpy; a short row contributes the default `0`). -/
def getColumn (window : List (List Int)) (c : Nat) : List Int :=
  window.map (fun row => row.getD c 0)

/-- src/profiling.py lines 110-124, `extract_features_silence`: per window,
the concatenated `{mean, variance}` silence pairs of every column, with the
training threshold 250. -/
def extract_features_silence (data : List (List (List Int))) (n_cols : Nat) :
    Except PyError (List (List ℚ)) :=
  data.mapM (fun w =>
    (List.range n_cols).foldlM
      (fun acc c =>
        match silence_feature_pair (getColumn w c) 250 with
        | .error e => .error e
        | .ok p => .ok (acc ++ [p.1, p.2]))
      [])

/-- Python list slicing `l[a:b]` with non-negative bounds. -/
def pySlice (l : List Int) (a b : Nat) : List Int := (l.drop a).take (b - a)

/-- Python list slice assignment `l[a:b] = c` (the callers below always
supply a replacement `c` of the same length as the slice). -/
def spliceAssign (l : List Int) (a b : Nat) (c : List Int) : List Int :=
  l.take a ++ c ++ l.drop b

/-- Keys of `collections.Counter(l)` in insertion order, i.e. the distinct
values of `l` in order of first occurrence. -/
def keysInOrder (l : List Int) : List Int :=
  l.foldl (fun acc x => if x ∈ acc then acc else acc ++ [x]) []

/-- Python `max(num_class, key=num_class.get)` over `Counter(l)`: the first
key (in insertion order) with maximal multiplicity.  Python raises on an
empty sequence; the `[]` branch below is unreachable from the call sites,
which test emptiness first. -/
def maxKey (l : List Int) : Int :=
  match keysInOrder l with
  | [] => 0
  | k :: ks => ks.foldl (fun best k2 => if l.count k2 > l.count best then k2 else best) k

/-- src/classification.py lines 192-199, `classify_aggregation_window`:
replace the whole window by its most frequent label when the frequency
fraction of that label exceeds `threshold`, else return the window
unchanged.  `max()` raises ValueError on an empty window. -/
def classify_aggregation_window (window : List Int) (threshold : ℚ) :
    Except PyError (List Int) :=
  if window.isEmpty then .error .valueError
  else
    let max_repetition := maxKey window
    if ((window.count max_repetition : ℚ) / (window.length : ℚ)) > threshold then
      .ok (List.replicate window.length max_repetition)
    else .ok window

/-- The while loop of src/classification.py lines 208-217 for one value
`ts` of `traffic_samples`: starting from chunk offset `i`, smooth the
chunks `[i, i+window_size)` while `i + window_size < ts`, then the partial
trailing chunk `[i, ts)` when `ts - i > 0`.  When `window_size = 0` the
slice `labels[i:i]` is empty and `classify_aggregation_window` raises, just
as the source would on `max()` of an empty Counter. -/
def smooth_pass (threshold : ℚ) (window_size ts : Nat) (i : Nat) (labels : List Int) :
    Except PyError (List Int) :=
  if _hlt : i + window_size < ts then
    if _hw : window_size = 0 then .error .valueError
    else
      match classify_aggregation_window (pySlice labels i (i + window_size)) threshold with
      | .error e => .error e
      | .ok c => smooth_pass threshold window_size ts (i + window_size)
          (spliceAssign labels i (i + window_size) c)
  else if 0 < ts - i then
    match classify_aggregation_window (pySlice labels i ts) threshold with
    | .error e => .error e
    | .ok c => .ok (spliceAssign labels i ts c)
  else .ok labels
termination_by ts - i
decreasing_by omega

/-- src/classification.py lines 202-219, `improve_classification_history`:
run `smooth_pass` from offset 0 once for every entry of `traffic_samples`,
threading the label list through. -/
def improve_classification_history (traffic_samples : List Nat) (traffic_idx : List Int)
    (window_size : Nat) (threshold : ℚ) : Except PyError (List Int) :=
  match traffic_samples with
  | [] => .ok traffic_idx
  | ts :: rest =>
    match smooth_pass threshold window_size ts 0 traffic_idx with
    | .error e => .error e
    | .ok l2 => improve_classification_history rest l2 window_size threshold

/-- src/classification.py line 342: indices whose (smoothed) bulk label is
at least 13, `[i for i, x in enumerate(y_test_model1) if x >= 13]`. -/
def possible_mining (l1 : List Int) : List Nat :=
  ((l1.enum).filter (fun p => 13 ≤ p.2)).map Prod.fst

/-- Helper for the fusion comprehension of src/classification.py lines
347-348, evaluated index by index: `y_test_model2[i]` is a dict lookup
(KeyError when absent), `y_test_model1[i]` a list index. -/
def fuseGo (l1 l2 : List Int) : List Nat → Except PyError (List Int)
  | [] => .ok []
  | i :: is =>
    let head : Except PyError Int :=
      if i ∈ possible_mining l1 then
        match l2[i]? with
        | some v => .ok v
        | none => .error .keyError
      else
        match l1[i]? with
        | some v => .ok v
        | none => .error .indexError
    match head, fuseGo l1 l2 is with
    | .ok v, .ok vs => .ok (v :: vs)
    | .error e, _ => .error e
    | .ok _, .error e => .error e

/-- src/classification.py lines 347-348: the final ensemble labels,
`[y_test_model2[i] if i in possible_mining else y_test_model1[i] for i in
range(len(y_test_model1))]`. -/
def fuse_labels (l1 l2 : List Int) : Except PyError (List Int) :=
  fuseGo l1 l2 (List.range l1.length)

/-- src/classification.py line 345: the feature sub-matrix
`norm_pca_test_features[:, 24:32]` handed to the silence specialist. -/
def silence_input (features : List (List ℚ)) : List (List ℚ) :=
  features.map (fun row => (row.drop 24).take 8)

/-- numpy true division `a / b` of quadrant sums: a zero denominator
produces a non-finite float (NaN for `0/0`), modelled as `none`. -/
def pyTrueDiv (a b : ℚ) : Option ℚ := if b = 0 then none else some (a / b)

/-- Sum of the sub-matrix `cm[r0:r1, c0:c1]` of a confusion matrix. -/
def quadSum (cm : List (List ℚ)) (r0 r1 c0 c1 : Nat) : ℚ :=
  (((cm.drop r0).take (r1 - r0)).map (fun row => ((row.drop c0).take (c1 - c0)).sum)).sum

/-- Result record of `binary_scores` (the source returns the 7-tuple
`tp, fn, fp, tn, precision, recall, accuracy` in this order). -/
structure BinaryScores where
  tp : ℚ
  fn : ℚ
  fp : ℚ
  tn : ℚ
  precision : Option ℚ
  «recall» : Option ℚ
  accuracy : Option ℚ
deriving DecidableEq, Repr

/-- src/classification.py lines 222-231, `binary_scores`: quadrant sums of
the confusion matrix split at `change_class` (rows and columns up to but
excluding `change_class` against rows and columns `change_class..max_class`),
and the three derived ratios. -/
def binary_scores (conf_matrix : List (List ℚ)) (change_class max_class : Nat) :
    BinaryScores :=
  let tp := quadSum conf_matrix 0 change_class 0 change_class
  let fn := quadSum conf_matrix change_class (max_class + 1) 0 change_class
  let fp := quadSum conf_matrix 0 change_class change_class (max_class + 1)
  let tn := quadSum conf_matrix change_class (max_class + 1) change_class (max_class + 1)
  { tp := tp, fn := fn, fp := fp, tn := tn
    precision := pyTrueDiv tp (tp + fp)
    «recall» := pyTrueDiv tp (tp + fn)
    accuracy := pyTrueDiv (tp + tn) (tp + fp + fn + tn) }

/-- Modelled from the claim wording of C4 (not from the source): with the
classes `id < split_low` as the negative superclass and
`[split_low, split_high]` as the positive superclass, the true-positive
count is the sum over the positive-positive quadrant. -/
def claimed_tp (cm : List (List ℚ)) (split_low split_high : Nat) : ℚ :=
  quadSum cm split_low (split_high + 1) split_low (split_high + 1)

/-- Modelled from the claim wording of C4: false negatives are windows of
true positive class predicted into the negative superclass. -/
def claimed_fn (cm : List (List ℚ)) (split_low split_high : Nat) : ℚ :=
  quadSum cm split_low (split_high + 1) 0 split_low

/-- Modelled from the claim wording of C4: false positives are windows of
true negative class predicted into the positive superclass. -/
def claimed_fp (cm : List (List ℚ)) (split_low split_high : Nat) : ℚ :=
  quadSum cm 0 split_low split_low (split_high + 1)

/-- Modelled from the claim wording of C4: true negatives are windows of
the negative superclass predicted negative. -/
def claimed_tn (cm : List (List ℚ)) (split_low : Nat) : ℚ :=
  quadSum cm 0 split_low 0 split_low

/-- Equality of modelled Python results is decidable, so that concrete runs
of the embedded functions can be checked by evaluation. -/
instance {ε α : Type} [DecidableEq ε] [DecidableEq α] : DecidableEq (Except ε α) := fun a b =>
  match a, b with
  | .error e, .error f =>
    if h : e = f then .isTrue (by rw [h]) else .isFalse (fun hh => h (by injection hh))
  | .ok x, .ok y =>
    if h : x = y then .isTrue (by rw [h]) else .isFalse (fun hh => h (by injection hh))
  | .error _, .ok _ => .isFalse (fun hh => Except.noConfusion hh)
  | .ok _, .error _ => .isFalse (fun hh => Except.noConfusion hh)

/-! ## Theorems -/

theorem incLast_sum_le (s : List Nat) : (incLast s).sum ≤ s.sum + 1 := by
  induction s with
  | nil => simp [incLast]
  | cons a rest ih =>
    cases rest with
    | nil => simp [incLast]
    | cons b r2 =>
      simp only [incLast, List.sum_cons]
      simp only [List.sum_cons] at ih
      omega

theorem silenceLoop_sum_le (thr : Int) (rest : List Int) :
    ∀ (prev : Int) (s : List Nat), (silenceLoop thr prev s rest).sum ≤ s.sum + rest.length := by
  induction rest with
  | nil => intro prev s; simp [silenceLoop]
  | cons x r2 ih =>
    intro prev s
    simp only [silenceLoop, List.length_cons]
    split
    · split
      · have h1 := ih x (s ++ [1])
        simp only [List.sum_append, List.sum_cons, List.sum_nil] at h1
        omega
      · have h1 := ih x (incLast s)
        have h2 := incLast_sum_le s
        omega
    · have h1 := ih x s
      omega

theorem silenceLoop_all_above (thr : Int) (rest : List Int)
    (h : ∀ x ∈ rest, thr < x) :
    ∀ (prev : Int) (s : List Nat), silenceLoop thr prev s rest = s := by
  induction rest with
  | nil => intro prev s; simp [silenceLoop]
  | cons x r2 ih =>
    intro prev s
    have hx : thr < x := h x (List.mem_cons_self ..)
    have hr : ∀ y ∈ r2, thr < y := fun y hy => h y (List.mem_cons_of_mem _ hy)
    simp only [silenceLoop, if_neg (by omega : ¬ x ≤ thr)]
    exact ih hr x s

theorem extract_silence_cons (d : Int) (rest : List Int) (thr : Int) :
    extract_silence (d :: rest) thr = .ok
      (if silenceLoop thr d (if d ≤ thr then [1] else []) rest = []
       then [0]
       else silenceLoop thr d (if d ≤ thr then [1] else []) rest) := rfl

/-- Claim C5: for every window column and threshold, the silence-run
lengths extracted by `extract_silence` sum to at most the window length,
and a window with no sample at or below the threshold yields the degenerate
silence feature pair `(0, 0)` (mean 0, variance 0) instead of failing on an
empty run list. -/
theorem claim_C5 (col : List Int) (threshold : Int) :
    (∀ runs, extract_silence col threshold = .ok runs → runs.sum ≤ col.length) ∧
    ((∀ x ∈ col, threshold < x) → col ≠ [] →
      silence_feature_pair col threshold = .ok (0, 0)) := by
  constructor
  · intro runs hruns
    cases col with
    | nil => exact absurd hruns (by simp [extract_silence])
    | cons d rest =>
      rw [extract_silence_cons] at hruns
      injection hruns with hruns
      have hbound : (silenceLoop threshold d
          (if d ≤ threshold then [1] else []) rest).sum ≤ 1 + rest.length := by
        have h1 := silenceLoop_sum_le threshold rest d (if d ≤ threshold then [1] else [])
        have h2 : (if d ≤ threshold then ([1] : List Nat) else []).sum ≤ 1 := by
          split <;> simp
        omega
      rw [← hruns]
      by_cases hs : silenceLoop threshold d (if d ≤ threshold then [1] else []) rest = []
      · rw [if_pos hs]; simp
      · rw [if_neg hs]
        simp only [List.length_cons]
        omega
  · intro habove hne
    cases col with
    | nil => exact absurd rfl hne
    | cons d rest =>
      have hd : threshold < d := habove d (List.mem_cons_self ..)
      have hr : ∀ y ∈ rest, threshold < y := fun y hy => habove y (List.mem_cons_of_mem _ hy)
      have hs : silenceLoop threshold d (if d ≤ threshold then [1] else []) rest = [] := by
        rw [if_neg (by omega : ¬ d ≤ threshold)]
        exact silenceLoop_all_above threshold rest hr d []
      have hrw : extract_silence (d :: rest) threshold = .ok [0] := by
        rw [extract_silence_cons, hs]
        simp
      simp only [silence_feature_pair, hrw]
      norm_num [pyMean, pyVar]

/-- Witness for C5 at concrete inputs: the runs of `[100, 300, 90]` under
threshold 250 sum to at most 3, and the all-loud window `[300, 260]` yields
the degenerate pair. -/
theorem claim_C5_witness :
    (([1, 1] : List Nat)).sum ≤ ([100, 300, 90] : List Int).length ∧
    silence_feature_pair [300, 260] 250 = .ok (0, 0) :=
  ⟨(claim_C5 [100, 300, 90] 250).1 [1, 1] (by decide),
   (claim_C5 [300, 260] 250).2 (by decide) (by decide)⟩

/-- Counterexample to claim C4 as stated: on the confusion matrix
`[[5,1],[2,10]]` with `split_low = split_high = 1`, the code returns
`tp = 5`, the sum of the quadrant of classes below `split_low` on both
axes, whereas the positive-superclass quadrant demanded by the claim sums
to 10. -/
theorem claim_C4_counterexample :
    (binary_scores [[5, 1], [2, 10]] 1 1).tp = 5 ∧
    claimed_tp [[5, 1], [2, 10]] 1 1 = 10 ∧
    (binary_scores [[5, 1], [2, 10]] 1 1).tp ≠ claimed_tp [[5, 1], [2, 10]] 1 1 := by
  norm_num [binary_scores, claimed_tp, quadSum]

/-- Claim C4 amended: `binary_scores` swaps `tp` and `tn` relative to the
claim polarity.  Its `tp` is the negative-negative quadrant (the claimed
`tn`) and its `tn` the positive-positive quadrant (the claimed `tp`), while
`fn` and `fp` agree with the claim; precision, recall and accuracy apply
the claimed formulas to these swapped values. -/
theorem claim_C4_amended (cm : List (List ℚ)) (split_low split_high : Nat) :
    binary_scores cm split_low split_high =
      { tp := claimed_tn cm split_low
        fn := claimed_fn cm split_low split_high
        fp := claimed_fp cm split_low split_high
        tn := claimed_tp cm split_low split_high
        precision := pyTrueDiv (claimed_tn cm split_low)
          (claimed_tn cm split_low + claimed_fp cm split_low split_high)
        «recall» := pyTrueDiv (claimed_tn cm split_low)
          (claimed_tn cm split_low + claimed_fn cm split_low split_high)
        accuracy := pyTrueDiv (claimed_tn cm split_low + claimed_tp cm split_low split_high)
          (claimed_tn cm split_low + claimed_fp cm split_low split_high +
            claimed_fn cm split_low split_high + claimed_tp cm split_low split_high) } := rfl

/-- Counterexample to claim C6 as stated: on the all-zero confusion matrix
every denominator is zero yet `binary_scores` does not fail; it returns the
zero quadrant sums with NaN (modelled `none`) for all three ratios. -/
theorem claim_C6_counterexample :
    binary_scores [[0, 0], [0, 0]] 1 1 =
      { tp := 0, fn := 0, fp := 0, tn := 0,
        precision := none, «recall» := none, accuracy := none } := by
  norm_num [binary_scores, quadSum, pyTrueDiv]

/-- Claim C6 amended: when a denominator `tp+fp`, `tp+fn` or
`tp+fp+fn+tn` is zero, `binary_scores` silently yields NaN (modelled
`none`) for the corresponding metric instead of raising an error. -/
theorem claim_C6_amended (cm : List (List ℚ)) (change_class max_class : Nat) :
    ((binary_scores cm change_class max_class).tp +
        (binary_scores cm change_class max_class).fp = 0 →
      (binary_scores cm change_class max_class).precision = none) ∧
    ((binary_scores cm change_class max_class).tp +
        (binary_scores cm change_class max_class).fn = 0 →
      (binary_scores cm change_class max_class).«recall» = none) ∧
    ((binary_scores cm change_class max_class).tp +
        (binary_scores cm change_class max_class).fp +
        (binary_scores cm change_class max_class).fn +
        (binary_scores cm change_class max_class).tn = 0 →
      (binary_scores cm change_class max_class).accuracy = none) := by
  refine ⟨fun h => ?_, fun h => ?_, fun h => ?_⟩ <;>
    simp only [binary_scores, pyTrueDiv] at h ⊢ <;>
    rw [if_pos (by linarith)]

/-- Witness for C6 amended at concrete inputs with zero denominators. -/
theorem claim_C6_witness :
    (binary_scores [[3]] 0 0).precision = none ∧
    (binary_scores [[3]] 0 0).«recall» = none ∧
    (binary_scores [[0]] 0 0).accuracy = none :=
  ⟨(claim_C6_amended [[3]] 0 0).1 (by norm_num [binary_scores, quadSum]),
   (claim_C6_amended [[3]] 0 0).2.1 (by norm_num [binary_scores, quadSum]),
   (claim_C6_amended [[0]] 0 0).2.2 (by norm_num [binary_scores, quadSum])⟩

theorem mem_possible_mining (l1 : List Int) (i : Nat) :
    i ∈ possible_mining l1 ↔ ∃ a, l1[i]? = some a ∧ 13 ≤ a := by
  simp only [possible_mining, List.mem_map, List.mem_filter]
  constructor
  · rintro ⟨⟨j, a⟩, ⟨hmem, hge⟩, rfl⟩
    exact ⟨a, List.mk_mem_enum_iff_getElem?.1 hmem, by simpa using hge⟩
  · rintro ⟨a, hget, hge⟩
    exact ⟨(i, a), ⟨List.mk_mem_enum_iff_getElem?.2 hget, by simpa using hge⟩, rfl⟩

theorem fuseGo_ok (l1 l2 : List Int) (idxs : List Nat)
    (h : ∀ i ∈ idxs, i < l1.length ∧ i < l2.length) :
    fuseGo l1 l2 idxs = .ok (idxs.map
      (fun i => if 13 ≤ l1.getD i 0 then l2.getD i 0 else l1.getD i 0)) := by
  induction idxs with
  | nil => rfl
  | cons i is ih =>
    obtain ⟨h1, h2⟩ := h i (List.mem_cons_self ..)
    have hrest := ih (fun j hj => h j (List.mem_cons_of_mem _ hj))
    simp only [fuseGo, hrest, List.map_cons]
    by_cases hm : i ∈ possible_mining l1
    · obtain ⟨a, hget, hge⟩ := (mem_possible_mining l1 i).1 hm
      rw [List.getElem?_eq_getElem h1] at hget
      injection hget with hget
      rw [if_pos hm, List.getElem?_eq_getElem h2,
        if_pos (show 13 ≤ l1.getD i 0 by rw [List.getD_eq_getElem _ _ h1, hget]; exact hge),
        List.getD_eq_getElem _ _ h2]
    · have hlt : ¬ 13 ≤ l1.getD i 0 := by
        intro hc
        exact hm ((mem_possible_mining l1 i).2
          ⟨l1.getD i 0, by rw [List.getElem?_eq_getElem h1, List.getD_eq_getElem _ _ h1], hc⟩)
      rw [if_neg hm, List.getElem?_eq_getElem h1, if_neg hlt,
        List.getD_eq_getElem _ _ h1]

theorem range_map_fuse_eq_zipWith (l1 l2 : List Int) (h : l1.length ≤ l2.length) :
    (List.range l1.length).map
        (fun i => if 13 ≤ l1.getD i 0 then l2.getD i 0 else l1.getD i 0)
      = List.zipWith (fun a b => if 13 ≤ a then b else a) l1 l2 := by
  induction l1 generalizing l2 with
  | nil => simp
  | cons a as ih =>
    cases l2 with
    | nil => simp at h
    | cons b bs =>
      simp only [List.length_cons, List.range_succ_eq_map, List.map_cons, List.map_map,
        List.getD_cons_zero, List.zipWith_cons_cons]
      congr 1
      rw [← ih bs (by simpa using h)]
      apply List.map_congr_left
      intro j _
      simp [List.getD_cons_succ]

theorem silence_slice_congr (r s : List ℚ)
    (h : ∀ j, 24 ≤ j → j < 32 → r[j]? = s[j]?) :
    (r.drop 24).take 8 = (s.drop 24).take 8 := by
  apply List.ext_getElem?
  intro n
  simp only [List.getElem?_take, List.getElem?_drop]
  split
  · exact h (24 + n) (by omega) (by omega)
  · rfl

/-- Claim C2: the ensemble fusion returns, at each position, the
silence-specialist label when the smoothed bulk label is at least 13 and
the smoothed bulk label otherwise; and the input handed to the silence
specialist consists of feature columns 24 to 31 only (the slice `24:32`),
so that feature matrices agreeing on those columns produce the same
specialist input. -/
theorem claim_C2 (l1 l2 : List Int) (h : l1.length ≤ l2.length)
    (f g : List (List ℚ))
    (hfg : List.Forall₂ (fun r s => ∀ j, 24 ≤ j → j < 32 → r[j]? = s[j]?) f g) :
    fuse_labels l1 l2 = .ok (List.zipWith (fun a b => if 13 ≤ a then b else a) l1 l2) ∧
    silence_input f = silence_input g := by
  constructor
  · rw [fuse_labels,
      fuseGo_ok l1 l2 _
        (fun i hi => ⟨List.mem_range.1 hi, lt_of_lt_of_le (List.mem_range.1 hi) h⟩),
      range_map_fuse_eq_zipWith l1 l2 h]
  · induction hfg with
    | nil => rfl
    | cons hrs _hrest ih =>
      simp only [silence_input, List.map_cons] at ih ⊢
      rw [silence_slice_congr _ _ hrs]
      exact congrArg _ ih

/-- Witness for C2 at concrete inputs: labels `[5, 14]` fused with
specialist labels `[7, 8]`, and the trivial empty feature matrices. -/
theorem claim_C2_witness :
    fuse_labels [5, 14] [7, 8] =
      .ok (List.zipWith (fun a b => if 13 ≤ a then b else a) [5, 14] [7, 8]) ∧
    silence_input [] = silence_input [] :=
  claim_C2 [5, 14] [7, 8] (by decide) [] [] List.Forall₂.nil

theorem keysInOrder_foldl_mem (l : List Int) :
    ∀ (acc : List Int) (x : Int),
      x ∈ l.foldl (fun acc x => if x ∈ acc then acc else acc ++ [x]) acc →
        x ∈ acc ∨ x ∈ l := by
  induction l with
  | nil => intro acc x h; exact Or.inl h
  | cons a as ih =>
    intro acc x h
    simp only [List.foldl_cons] at h
    rcases ih _ x h with hacc | has
    · by_cases ha : a ∈ acc
      · rw [if_pos ha] at hacc; exact Or.inl hacc
      · rw [if_neg ha] at hacc
        rcases List.mem_append.1 hacc with h1 | h2
        · exact Or.inl h1
        · simp only [List.mem_singleton] at h2
          subst h2
          exact Or.inr (List.mem_cons_self ..)
    · exact Or.inr (List.mem_cons_of_mem _ has)

theorem keysInOrder_subset (l : List Int) (x : Int) (h : x ∈ keysInOrder l) : x ∈ l :=
  (keysInOrder_foldl_mem l [] x h).resolve_left (by simp)

theorem keysInOrder_foldl_ne_nil (l : List Int) :
    ∀ acc : List Int, acc ≠ [] →
      l.foldl (fun acc x => if x ∈ acc then acc else acc ++ [x]) acc ≠ [] := by
  induction l with
  | nil => intro acc h; exact h
  | cons a as ih =>
    intro acc h
    simp only [List.foldl_cons]
    apply ih
    by_cases ha : a ∈ acc
    · rw [if_pos ha]; exact h
    · rw [if_neg ha]; simp

theorem keysInOrder_ne_nil (l : List Int) (h : l ≠ []) : keysInOrder l ≠ [] := by
  cases l with
  | nil => exact absurd rfl h
  | cons a as =>
    show List.foldl _ _ (a :: as) ≠ []
    simp only [List.foldl_cons, List.not_mem_nil, if_neg, List.nil_append]
    exact keysInOrder_foldl_ne_nil as [a] (by simp)

theorem foldl_pick_mem (l : List Int) (ks : List Int) :
    ∀ k : Int,
      ks.foldl (fun best k2 => if l.count k2 > l.count best then k2 else best) k ∈ k :: ks := by
  induction ks with
  | nil => intro k; simp
  | cons b bs ih =>
    intro k
    simp only [List.foldl_cons]
    rcases List.mem_cons.1 (ih (if l.count b > l.count k then b else k)) with h1 | h2
    · rw [h1]
      split
      · exact List.mem_cons_of_mem _ (List.mem_cons_self ..)
      · exact List.mem_cons_self ..
    · exact List.mem_cons_of_mem _ (List.mem_cons_of_mem _ h2)

theorem maxKey_mem (l : List Int) (h : l ≠ []) : maxKey l ∈ l := by
  rcases hk : keysInOrder l with _ | ⟨k, ks⟩
  · exact absurd hk (keysInOrder_ne_nil l h)
  · have hm : maxKey l ∈ k :: ks := by
      unfold maxKey
      rw [hk]
      exact foldl_pick_mem l ks k
    rw [← hk] at hm
    exact keysInOrder_subset l _ hm

theorem keysInOrder_foldl_replicate (m : Int) (n : Nat) :
    ∀ acc : List Int, m ∈ acc →
      (List.replicate n m).foldl (fun acc x => if x ∈ acc then acc else acc ++ [x]) acc = acc := by
  induction n with
  | zero => intro acc _; rfl
  | succ n2 ih =>
    intro acc hm
    simp only [List.replicate_succ, List.foldl_cons, if_pos hm]
    exact ih acc hm

theorem keysInOrder_replicate (m : Int) (n : Nat) (h : 0 < n) :
    keysInOrder (List.replicate n m) = [m] := by
  cases n with
  | zero => omega
  | succ n2 =>
    show List.foldl _ _ (List.replicate (n2 + 1) m) = [m]
    rw [List.replicate_succ]
    simp only [List.foldl_cons, List.not_mem_nil, if_neg, List.nil_append]
    exact keysInOrder_foldl_replicate m n2 [m] (by simp)

theorem maxKey_replicate (m : Int) (n : Nat) (h : 0 < n) :
    maxKey (List.replicate n m) = m := by
  unfold maxKey
  rw [keysInOrder_replicate m n h]
  rfl

theorem classify_ok_shape (window c : List Int) (threshold : ℚ)
    (h : classify_aggregation_window window threshold = .ok c) :
    window ≠ [] ∧ c.length = window.length ∧
      (c = window ∨ c = List.replicate window.length (maxKey window)) := by
  unfold classify_aggregation_window at h
  split at h
  · exact absurd h (by simp)
  · have hne : window ≠ [] := by
      rename_i hemp
      simpa [List.isEmpty_iff] using hemp
    dsimp only at h
    split at h
    · injection h with h
      exact ⟨hne, by rw [← h]; simp, Or.inr h.symm⟩
    · injection h with h
      exact ⟨hne, by rw [h], Or.inl h.symm⟩

theorem classify_ok_subset (window c : List Int) (threshold : ℚ)
    (h : classify_aggregation_window window threshold = .ok c) :
    ∀ x ∈ c, x ∈ window := by
  obtain ⟨hne, _, hcases⟩ := classify_ok_shape window c threshold h
  intro x hx
  rcases hcases with rfl | hrep
  · exact hx
  · rw [hrep] at hx
    rw [List.eq_of_mem_replicate hx]
    exact maxKey_mem window hne

theorem classify_idem (window c : List Int) (threshold : ℚ) (hthr : threshold ≤ 1)
    (h : classify_aggregation_window window threshold = .ok c) :
    classify_aggregation_window c threshold = .ok c := by
  obtain ⟨hne, _, hcases⟩ := classify_ok_shape window c threshold h
  rcases hcases with rfl | hrep
  · exact h
  · have hn : 0 < window.length := List.length_pos.2 hne
    rw [hrep]
    unfold classify_aggregation_window
    rw [if_neg (by simp only [List.isEmpty_iff, List.replicate_eq_nil_iff]; omega)]
    dsimp only
    rw [maxKey_replicate (maxKey window) window.length hn]
    have hcount : List.count (maxKey window) (List.replicate window.length (maxKey window))
        = window.length := by simp
    rw [hcount, List.length_replicate]
    have hdiv : ((window.length : ℚ)) / (window.length : ℚ) = 1 :=
      div_self (Nat.cast_ne_zero.2 (by omega))
    rw [hdiv]
    rcases lt_or_eq_of_le hthr with hlt | heq
    · rw [if_pos hlt]
    · subst heq
      rw [if_neg (lt_irrefl 1)]

theorem pySlice_length (l : List Int) (a b : Nat) :
    (pySlice l a b).length = min (b - a) (l.length - a) := by
  simp [pySlice]

theorem pySlice_ne_nil (l : List Int) (a b : Nat) (h : pySlice l a b ≠ []) :
    a < l.length ∧ a < b := by
  have hlen := pySlice_length l a b
  rcases Nat.eq_zero_or_pos (pySlice l a b).length with h0 | hpos
  · exact absurd (List.eq_nil_of_length_eq_zero h0) h
  · rw [hlen] at hpos
    omega

theorem pySlice_subset (l : List Int) (a b : Nat) (x : Int)
    (h : x ∈ pySlice l a b) : x ∈ l :=
  List.mem_of_mem_drop (List.mem_of_mem_take h)

theorem spliceAssign_length (l c : List Int) (a b : Nat) (ha : a ≤ l.length) (hab : a ≤ b)
    (hc : c.length = min (b - a) (l.length - a)) :
    (spliceAssign l a b c).length = l.length := by
  simp only [spliceAssign, List.length_append, List.length_take, List.length_drop]
  omega

theorem spliceAssign_mem (l c : List Int) (a b : Nat) (x : Int)
    (h : x ∈ spliceAssign l a b c) : x ∈ l ∨ x ∈ c := by
  simp only [spliceAssign, List.mem_append] at h
  rcases h with (h1 | h2) | h3
  · exact Or.inl (List.mem_of_mem_take h1)
  · exact Or.inr h2
  · exact Or.inl (List.mem_of_mem_drop h3)

theorem spliceAssign_take (l c : List Int) (a b : Nat) (ha : a ≤ l.length) :
    (spliceAssign l a b c).take a = l.take a := by
  have h1 : (l.take a).length = a := by
    simp only [List.length_take]
    omega
  calc (spliceAssign l a b c).take a
      = ((l.take a) ++ (c ++ l.drop b)).take (l.take a).length := by
        rw [spliceAssign, List.append_assoc, h1]
    _ = l.take a := List.take_left ..

theorem pySlice_eq_drop_take (l : List Int) (a b : Nat) :
    pySlice l a b = (l.take b).drop a := by
  rw [pySlice, List.drop_take]

theorem pySlice_spliceAssign (l c : List Int) (a b : Nat) (ha : a ≤ l.length) (hab : a ≤ b)
    (hc : c.length = min (b - a) (l.length - a)) :
    pySlice (spliceAssign l a b c) a b = c := by
  have h1 : (l.take a).length = a := by
    simp only [List.length_take]
    omega
  rw [pySlice, spliceAssign, List.append_assoc]
  rw [List.drop_append_eq_append_drop, List.drop_eq_nil_of_le (le_of_eq h1), h1,
    Nat.sub_self, List.drop_zero, List.nil_append]
  rw [List.take_append_eq_append_take]
  have hcle : c.length ≤ b - a := by omega
  rw [List.take_of_length_le hcle]
  suffices hnil : (l.drop b).take (b - a - c.length) = [] by
    rw [hnil, List.append_nil]
  by_cases hbl : l.length ≤ b
  · rw [List.drop_eq_nil_of_le hbl, List.take_nil]
  · have hce : c.length = b - a := by omega
    rw [hce, Nat.sub_self, List.take_zero]

theorem spliceAssign_pySlice_self (l : List Int) (a b : Nat) (hab : a ≤ b) :
    spliceAssign l a b (pySlice l a b) = l := by
  rw [spliceAssign, pySlice]
  have h2 : l.drop b = (l.drop a).drop (b - a) := by
    rw [List.drop_drop]
    congr 1
    omega
  rw [List.append_assoc, h2, List.take_append_drop, List.take_append_drop]

theorem smooth_pass_loop (thr : ℚ) (w ts i : Nat) (L : List Int)
    (hlt : i + w < ts) (hw : ¬ w = 0) :
    smooth_pass thr w ts i L =
      match classify_aggregation_window (pySlice L i (i + w)) thr with
      | .error e => .error e
      | .ok c => smooth_pass thr w ts (i + w) (spliceAssign L i (i + w) c) := by
  rw [smooth_pass]
  rw [dif_pos hlt, dif_neg hw]

theorem smooth_pass_w_zero (thr : ℚ) (w ts i : Nat) (L : List Int)
    (hlt : i + w < ts) (hw : w = 0) :
    smooth_pass thr w ts i L = .error .valueError := by
  rw [smooth_pass]
  rw [dif_pos hlt, dif_pos hw]

theorem smooth_pass_tail (thr : ℚ) (w ts i : Nat) (L : List Int)
    (hlt : ¬ i + w < ts) (hts : 0 < ts - i) :
    smooth_pass thr w ts i L =
      match classify_aggregation_window (pySlice L i ts) thr with
      | .error e => .error e
      | .ok c => .ok (spliceAssign L i ts c) := by
  rw [smooth_pass]
  rw [dif_neg hlt, if_pos hts]

theorem smooth_pass_done (thr : ℚ) (w ts i : Nat) (L : List Int)
    (hlt : ¬ i + w < ts) (hts : ¬ 0 < ts - i) :
    smooth_pass thr w ts i L = .ok L := by
  rw [smooth_pass]
  rw [dif_neg hlt, if_neg hts]

theorem smooth_pass_ok (thr : ℚ) (w ts i : Nat) (L : List Int) :
    ∀ out, smooth_pass thr w ts i L = .ok out →
      out.length = L.length ∧ (∀ x ∈ out, x ∈ L) ∧ out.take i = L.take i := by
  induction i, L using smooth_pass.induct thr w ts with
  | case1 i L hlt hw =>
    intro out h
    rw [smooth_pass_w_zero thr w ts i L hlt hw] at h
    exact absurd h (by simp)
  | case2 i L hlt hw e hc =>
    intro out h
    rw [smooth_pass_loop thr w ts i L hlt hw, hc] at h
    exact absurd h (by simp)
  | case3 i L hlt hw c hc ih =>
    intro out h
    rw [smooth_pass_loop thr w ts i L hlt hw, hc] at h
    obtain ⟨hlen, hmem, htake⟩ := ih out h
    obtain ⟨hne, hclen, _⟩ := classify_ok_shape _ _ _ hc
    obtain ⟨hi, _⟩ := pySlice_ne_nil L i (i + w) hne
    have hclen2 : c.length = min (i + w - i) (L.length - i) := by
      rw [hclen, pySlice_length]
    have hsplen : (spliceAssign L i (i + w) c).length = L.length :=
      spliceAssign_length L c i (i + w) (le_of_lt hi) (by omega) hclen2
    refine ⟨by rw [hlen, hsplen], ?_, ?_⟩
    · intro x hx
      rcases spliceAssign_mem L c i (i + w) x (hmem x hx) with h1 | h2
      · exact h1
      · exact pySlice_subset L i (i + w) x (classify_ok_subset _ _ _ hc x h2)
    · have htk : out.take i = (out.take (i + w)).take i := by
        rw [List.take_take, Nat.min_eq_left (by omega)]
      have htk2 : ((spliceAssign L i (i + w) c).take (i + w)).take i
          = (spliceAssign L i (i + w) c).take i := by
        rw [List.take_take, Nat.min_eq_left (by omega)]
      rw [htk, htake, htk2, spliceAssign_take L c i (i + w) (le_of_lt hi)]
  | case4 i L hlt hts e hc =>
    intro out h
    rw [smooth_pass_tail thr w ts i L hlt hts, hc] at h
    exact absurd h (by simp)
  | case5 i L hlt hts c hc =>
    intro out h
    rw [smooth_pass_tail thr w ts i L hlt hts, hc] at h
    injection h with h
    subst h
    obtain ⟨hne, hclen, _⟩ := classify_ok_shape _ _ _ hc
    obtain ⟨hi, hib⟩ := pySlice_ne_nil L i ts hne
    have hclen2 : c.length = min (ts - i) (L.length - i) := by
      rw [hclen, pySlice_length]
    refine ⟨spliceAssign_length L c i ts (le_of_lt hi) (by omega) hclen2, ?_, ?_⟩
    · intro x hx
      rcases spliceAssign_mem L c i ts x hx with h1 | h2
      · exact h1
      · exact pySlice_subset L i ts x (classify_ok_subset _ _ _ hc x h2)
    · exact spliceAssign_take L c i ts (le_of_lt hi)
  | case6 i L hlt hts =>
    intro out h
    rw [smooth_pass_done thr w ts i L hlt hts] at h
    injection h with h
    subst h
    exact ⟨rfl, fun x hx => hx, rfl⟩

/-- Claim C10: temporal smoothing preserves the length of the label list
and never invents a new label; every label of the output occurs in the
input. -/
theorem claim_C10 (traffic_samples : List Nat) (traffic_idx out : List Int)
    (window_size : Nat) (threshold : ℚ)
    (h : improve_classification_history traffic_samples traffic_idx window_size threshold
      = .ok out) :
    out.length = traffic_idx.length ∧ ∀ x ∈ out, x ∈ traffic_idx := by
  induction traffic_samples generalizing traffic_idx with
  | nil =>
    unfold improve_classification_history at h
    injection h with h
    subst h
    exact ⟨rfl, fun x hx => hx⟩
  | cons ts rest ih =>
    unfold improve_classification_history at h
    rcases hsp : smooth_pass threshold window_size ts 0 traffic_idx with e | l2
    · rw [hsp] at h
      exact absurd h (by simp)
    · rw [hsp] at h
      obtain ⟨hlen1, hmem1⟩ := ih l2 h
      obtain ⟨hlen2, hmem2, _⟩ := smooth_pass_ok threshold window_size ts 0 traffic_idx l2 hsp
      exact ⟨hlen1.trans hlen2, fun x hx => hmem2 x (hmem1 x hx)⟩

/-- Witness for C10 on a concrete run: smoothing `[1, 1, 2]` with one
segment of length 3 and window size 2 returns a list of the same length
whose labels all occur in the input. -/
theorem claim_C10_witness :
    ([1, 1, 2] : List Int).length = ([1, 1, 2] : List Int).length ∧
    ∀ x ∈ ([1, 1, 2] : List Int), x ∈ ([1, 1, 2] : List Int) :=
  claim_C10 [3] [1, 1, 2] [1, 1, 2] 2 (3/5)
    (by norm_num [improve_classification_history, smooth_pass, classify_aggregation_window,
      pySlice, spliceAssign, maxKey, keysInOrder, List.count_cons, List.replicate])

theorem smooth_pass_idem (thr : ℚ) (hthr : thr ≤ 1) (w ts i : Nat) (L : List Int) :
    ∀ out, smooth_pass thr w ts i L = .ok out →
      smooth_pass thr w ts i out = .ok out := by
  induction i, L using smooth_pass.induct thr w ts with
  | case1 i L hlt hw =>
    intro out h
    rw [smooth_pass_w_zero thr w ts i L hlt hw] at h
    exact absurd h (by simp)
  | case2 i L hlt hw e hc =>
    intro out h
    rw [smooth_pass_loop thr w ts i L hlt hw, hc] at h
    exact absurd h (by simp)
  | case3 i L hlt hw c hc ih =>
    intro out h
    rw [smooth_pass_loop thr w ts i L hlt hw, hc] at h
    obtain ⟨hne, hclen, _⟩ := classify_ok_shape _ _ _ hc
    obtain ⟨hi, _⟩ := pySlice_ne_nil L i (i + w) hne
    have hclen2 : c.length = min (i + w - i) (L.length - i) := by
      rw [hclen, pySlice_length]
    obtain ⟨_, _, htake⟩ := smooth_pass_ok thr w ts (i + w) _ out h
    have hslice : pySlice out i (i + w) = c := by
      rw [pySlice_eq_drop_take, htake, ← pySlice_eq_drop_take]
      exact pySlice_spliceAssign L c i (i + w) (le_of_lt hi) (by omega) hclen2
    rw [smooth_pass_loop thr w ts i out hlt hw, hslice,
      classify_idem _ c thr hthr hc]
    have hsplice : spliceAssign out i (i + w) c = out := by
      rw [← hslice]
      exact spliceAssign_pySlice_self out i (i + w) (by omega)
    dsimp only
    rw [hsplice]
    exact ih out h
  | case4 i L hlt hts e hc =>
    intro out h
    rw [smooth_pass_tail thr w ts i L hlt hts, hc] at h
    exact absurd h (by simp)
  | case5 i L hlt hts c hc =>
    intro out h
    rw [smooth_pass_tail thr w ts i L hlt hts, hc] at h
    injection h with h
    obtain ⟨hne, hclen, _⟩ := classify_ok_shape _ _ _ hc
    obtain ⟨hi, hib⟩ := pySlice_ne_nil L i ts hne
    have hclen2 : c.length = min (ts - i) (L.length - i) := by
      rw [hclen, pySlice_length]
    have hslice : pySlice out i ts = c := by
      rw [← h]
      exact pySlice_spliceAssign L c i ts (le_of_lt hi) (by omega) hclen2
    rw [smooth_pass_tail thr w ts i out hlt hts, hslice,
      classify_idem _ c thr hthr hc]
    dsimp only
    rw [← hslice, spliceAssign_pySlice_self out i ts (by omega)]
  | case6 i L hlt hts =>
    intro out h
    rw [smooth_pass_done thr w ts i L hlt hts] at h
    injection h with h
    subst h
    exact smooth_pass_done thr w ts i L hlt hts

/-- Counterexample to claim C9 as stated: with the multi-segment pass list
`[4, 3]`, window size 4 and threshold `1/2 ≤ 1`, smoothing `[0, 0, 1, 2]`
yields `[0, 0, 0, 2]`, but smoothing that result again yields
`[0, 0, 0, 0]`, so `smooth (smooth x) ≠ smooth x`. -/
theorem claim_C9_counterexample :
    ((1 : ℚ)/2) ≤ 1 ∧
    improve_classification_history [4, 3] [0, 0, 1, 2] 4 (1/2) = .ok [0, 0, 0, 2] ∧
    improve_classification_history [4, 3] [0, 0, 0, 2] 4 (1/2) = .ok [0, 0, 0, 0] ∧
    ([0, 0, 0, 2] : List Int) ≠ [0, 0, 0, 0] := by
  refine ⟨by norm_num, ?_, ?_, by decide⟩ <;>
    norm_num [improve_classification_history, smooth_pass, classify_aggregation_window,
      pySlice, spliceAssign, maxKey, keysInOrder, List.count_cons, List.replicate]

/-- Claim C9 amended: temporal smoothing is idempotent for every threshold
at most 1 when `traffic_samples` holds a single segment, i.e. when the
chunk decomposition is traversed once; with several entries the later
passes re-chunk from index 0 and idempotence fails (see the
counterexample). -/
theorem claim_C9_amended (ts window_size : Nat) (threshold : ℚ) (hthr : threshold ≤ 1)
    (labels out : List Int)
    (h : improve_classification_history [ts] labels window_size threshold = .ok out) :
    improve_classification_history [ts] out window_size threshold = .ok out := by
  unfold improve_classification_history at h ⊢
  rcases hsp : smooth_pass threshold window_size ts 0 labels with e | l2
  · rw [hsp] at h
    exact absurd h (by simp)
  · rw [hsp] at h
    unfold improve_classification_history at h
    injection h with h
    subst h
    rw [smooth_pass_idem threshold hthr window_size ts 0 labels l2 hsp]
    rfl

/-- Witness for C9 amended: a single-segment run on `[1, 2, 2]` returns
`[1, 2, 2]`, and smoothing that output again returns it unchanged. -/
theorem claim_C9_witness :
    improve_classification_history [3] [1, 2, 2] 2 (3/5) = .ok [1, 2, 2] :=
  claim_C9_amended 3 2 (3/5) (by norm_num) [1, 2, 2] [1, 2, 2]
    (by norm_num [improve_classification_history, smooth_pass, classify_aggregation_window,
      pySlice, spliceAssign, maxKey, keysInOrder, List.count_cons, List.replicate])

/-- Claim C3 evaluated on the failing input: with segment lengths `[4, 8]`
(boundary after index 3), window size 3 and threshold `3/5`, the two label
sequences agree on the second segment (indices 4 and beyond) but their
smoothed outputs differ there: the pass for the second entry smooths the
chunk `[3:6)`, which spans the class boundary, so the segment-1 label at
index 3 changes the segment-2 output at index 5. -/
theorem claim_C3_eval :
    ([0, 0, 0, 9, 9, 1, 1, 1] : List Int).drop 4 = ([0, 0, 0, 5, 9, 1, 1, 1] : List Int).drop 4 ∧
    improve_classification_history [4, 8] [0, 0, 0, 9, 9, 1, 1, 1] 3 (3/5)
      = .ok [0, 0, 0, 9, 9, 9, 1, 1] ∧
    improve_classification_history [4, 8] [0, 0, 0, 5, 9, 1, 1, 1] 3 (3/5)
      = .ok [0, 0, 0, 5, 9, 1, 1, 1] ∧
    ([0, 0, 0, 9, 9, 9, 1, 1] : List Int).drop 4 ≠ ([0, 0, 0, 5, 9, 1, 1, 1] : List Int).drop 4 := by
  refine ⟨by decide, ?_, ?_, by decide⟩ <;>
    norm_num [improve_classification_history, smooth_pass, classify_aggregation_window,
      pySlice, spliceAssign, maxKey, keysInOrder, List.count_cons, List.replicate]

theorem sliceTo_append_sliceFrom {α : Type} (l : List α) (t : Int) :
    sliceTo l t ++ sliceFrom l t = l := by
  rw [sliceTo, sliceFrom]
  split <;> exact List.take_append_drop ..

theorem sliceTo_natCast {α : Type} (l : List α) (n : Nat) :
    sliceTo l ((n : Nat) : Int) = l.take n := by
  rw [sliceTo, if_pos (by omega)]
  norm_num

theorem chunkList_nil {α : Type} (k : Nat) : chunkList k ([] : List α) = [] := by
  rw [chunkList]
  simp

theorem chunkList_step {α : Type} (k : Nat) (l : List α) (hk : k ≠ 0) (hl : l ≠ []) :
    chunkList k l = l.take k :: chunkList k (l.drop k) := by
  rw [chunkList]
  rw [dif_neg (by simp [List.isEmpty_iff, hl, hk])]

theorem chunkList_length {α : Type} (k : Nat) (hk : k ≠ 0) :
    ∀ (m : Nat) (l : List α), l.length = m * k → (chunkList k l).length = m := by
  intro m
  induction m with
  | zero =>
    intro l hl
    have hl0 : l = [] := List.eq_nil_of_length_eq_zero (by simpa using hl)
    rw [hl0, chunkList_nil]
    rfl
  | succ m2 ih =>
    intro l hl
    have hlne : l ≠ [] := by
      intro hnil
      rw [hnil] at hl
      simp only [List.length_nil] at hl
      have : 0 < (m2 + 1) * k := Nat.mul_pos (by omega) (by omega)
      omega
    rw [chunkList_step k l hk hlne]
    have hdrop : (l.drop k).length = m2 * k := by
      simp only [List.length_drop, hl, Nat.succ_mul]
      omega
    rw [List.length_cons, ih (l.drop k) hdrop]

theorem chunkList_drop {α : Type} (k : Nat) (hk : k ≠ 0) :
    ∀ (i m : Nat) (l : List α), l.length = m * k → i ≤ m →
      (chunkList k l).drop i = chunkList k (l.drop (i * k)) := by
  intro i
  induction i with
  | zero => intro m l _ _; simp
  | succ i2 ih =>
    intro m l hl him
    have hm1 : 1 ≤ m := by omega
    have hlne : l ≠ [] := by
      intro hnil
      rw [hnil] at hl
      simp only [List.length_nil] at hl
      have : 0 < m * k := Nat.mul_pos (by omega) (by omega)
      omega
    rw [chunkList_step k l hk hlne, List.drop_succ_cons]
    have hdrop : (l.drop k).length = (m - 1) * k := by
      simp only [List.length_drop, hl, Nat.sub_mul, one_mul]
    rw [ih (m - 1) (l.drop k) hdrop (by omega), List.drop_drop]
    have harg : k + i2 * k = (i2 + 1) * k := by
      rw [Nat.add_mul, one_mul]
      omega
    rw [harg]

theorem chunkList_take_flatten {α : Type} (k : Nat) (hk : k ≠ 0) :
    ∀ (j m : Nat) (l : List α), l.length = m * k → j ≤ m →
      ((chunkList k l).take j).flatten = l.take (j * k) := by
  intro j
  induction j with
  | zero => intro m l _ _; simp
  | succ j2 ih =>
    intro m l hl hjm
    have hlne : l ≠ [] := by
      intro hnil
      rw [hnil] at hl
      simp only [List.length_nil] at hl
      have : 0 < m * k := Nat.mul_pos (by omega) (by omega)
      omega
    rw [chunkList_step k l hk hlne, List.take_succ_cons, List.flatten_cons]
    have hdrop : (l.drop k).length = (m - 1) * k := by
      simp only [List.length_drop, hl, Nat.sub_mul, one_mul]
    rw [ih (m - 1) (l.drop k) hdrop (by omega)]
    rw [show j2.succ * k = k + j2 * k by rw [Nat.succ_mul]; omega, List.take_add]

theorem chunkList_window {α : Type} (k : Nat) (hk : k ≠ 0) (i j m : Nat) (l : List α)
    (hl : l.length = m * k) (hij : i + j ≤ m) :
    (((chunkList k l).drop i).take j).flatten = (l.drop (i * k)).take (j * k) := by
  rw [chunkList_drop k hk i m l hl (by omega)]
  have hdrop : (l.drop (i * k)).length = (m - i) * k := by
    simp only [List.length_drop, hl, Nat.sub_mul]
  rw [chunkList_take_flatten k hk j (m - i) (l.drop (i * k)) hdrop (by omega)]

theorem fancyIndex_append_split {β : Type} (l : List β) (a b : List Nat) (v : List β)
    (h : fancyIndex l (a ++ b) = some v) :
    ∃ x y, fancyIndex l a = some x ∧ fancyIndex l b = some y ∧ v = x ++ y := by
  induction a generalizing v with
  | nil => exact ⟨[], v, rfl, h, rfl⟩
  | cons i is ih =>
    rw [List.cons_append] at h
    unfold fancyIndex at h
    rcases hli : l[i]? with _ | w
    · rw [hli] at h
      exact absurd h (by simp)
    · rw [hli] at h
      rcases hrest : fancyIndex l (is ++ b) with _ | vs
      · rw [hrest] at h
        exact absurd h (by simp)
      · rw [hrest] at h
        injection h with h
        obtain ⟨x, y, hx, hy, hxy⟩ := ih vs hrest
        refine ⟨w :: x, y, ?_, hy, by rw [← h, hxy]; rfl⟩
        unfold fancyIndex
        rw [hli, hx]

theorem fancyIndex_range_aux {β : Type} (l : List β) :
    ∀ (n s : Nat), s + n ≤ l.length →
      fancyIndex l (List.range' s n) = some ((l.drop s).take n) := by
  intro n
  induction n with
  | zero => intro s _; simp [fancyIndex]
  | succ n2 ih =>
    intro s hs
    have hslt : s < l.length := by omega
    rw [List.range'_succ]
    unfold fancyIndex
    rw [List.getElem?_eq_getElem hslt, ih (s + 1) (by omega)]
    rw [List.drop_eq_getElem_cons hslt, List.take_succ_cons]

theorem fancyIndex_range {β : Type} (l : List β) :
    fancyIndex l (List.range l.length) = some l := by
  rw [List.range_eq_range', fancyIndex_range_aux l l.length 0 (by omega)]
  simp

/-- Claim C1 amended: for a valid pair (`slide_window` divides `obs_window`,
both positive) and at least `obs_window + slide_window` samples (so that at
least one window exists), the deterministic split of `break_train_test`
produces exactly `(n - obs_window) / slide_window` observation windows over
the train and test parts together, and window `i` consists of the
`obs_window` consecutive original samples starting at `i * slide_window`.
For `obs_window ≤ n < obs_window + slide_window` the source raises instead
of producing zero windows, so the claim needs the strengthened bound. -/
theorem claim_C1_amended {α : Type} (data : List α) (obs slide : Nat) (q : ℚ)
    (hs : 0 < slide) (ho : 0 < obs) (hd : slide ∣ obs)
    (hn : obs + slide ≤ data.length) :
    ∃ tr te, break_train_test data obs slide q false [] = .ok (tr, te) ∧
      (tr ++ te).length = (data.length - obs) / slide ∧
      ∀ i, i < (data.length - obs) / slide →
        (tr ++ te)[i]? = some ((data.drop (i * slide)).take obs) := by
  have hs0 : slide ≠ 0 := by omega
  have hws : (obs / slide) * slide = obs := Nat.div_mul_cancel hd
  have hws1 : 1 ≤ obs / slide := by
    rw [Nat.one_le_div_iff hs]
    exact Nat.le_of_dvd ho hd
  have hK1 : 1 ≤ (data.length - obs) / slide := by
    rw [Nat.one_le_div_iff hs]
    omega
  have hKs : ((data.length - obs) / slide) * slide ≤ data.length - obs :=
    Nat.div_mul_le_self ..
  unfold break_train_test
  rw [if_neg hs0]
  dsimp only
  set K := (data.length - obs) / slide with hK
  set W := obs / slide with hW
  have hsl : slide ≤ K * slide := Nat.le_mul_of_pos_left slide (by omega)
  have hnobs : Int.tdiv ((data.length : Int) - (obs : Int)) (slide : Int) = (K : Int) := by
    rw [show ((data.length : Int) - (obs : Int)) = (((data.length - obs : Nat)) : Int) by
      omega, hK]
    rfl
  rw [hnobs]
  have htrim : ((K : Int) - 1) * (slide : Int) + (obs : Int)
      = (((K - 1) * slide + obs : Nat) : Int) := by
    push_cast [Nat.cast_sub hK1]
    ring
  rw [htrim, sliceTo_natCast]
  have hnsl : (K : Int) + (W : Int) - 1 = (((K + W - 1 : Nat)) : Int) := by
    push_cast [Nat.cast_sub (show 1 ≤ K + W by omega)]
    ring
  rw [hnsl]
  have hTle : (K - 1) * slide + obs ≤ data.length := by
    rw [Nat.sub_mul, one_mul]
    omega
  have hlenT : (data.take ((K - 1) * slide + obs)).length = (K - 1) * slide + obs := by
    rw [List.length_take, Nat.min_eq_left hTle]
  have hTM : (K - 1) * slide + obs = (K + W - 1) * slide := by
    rw [Nat.sub_mul, Nat.sub_mul, Nat.add_mul, one_mul, ← hws]
    omega
  have hcond : (data.take ((K - 1) * slide + obs)).length
      = ((((K + W - 1 : Nat)) : Int)).toNat * slide := by
    rw [hlenT, Int.toNat_natCast]
    exact hTM
  have hreshape : npReshapeRows (data.take ((K - 1) * slide + obs))
      (((K + W - 1 : Nat)) : Int) slide
      = .ok (chunkList slide (data.take ((K - 1) * slide + obs))) := by
    rw [npReshapeRows, if_neg (by omega), if_pos hcond]
  rw [hreshape]
  dsimp only
  rw [if_neg (show ¬ ((0 : Int) < (K : Int) ∧ W = 0) by
    rintro ⟨_, hw0⟩
    omega)]
  rw [if_neg (show ¬ ((false : Bool) = true ∧ ((K : Nat) : Int) < 0) by simp)]
  rw [if_neg (show ¬ ((false : Bool) = true) by simp)]
  rw [Int.toNat_natCast]
  have hobs_ne : ¬ ((List.range K).map
      (fun i => ((chunkList slide (data.take ((K - 1) * slide + obs))).drop i).take W
        |>.flatten)).isEmpty = true := by
    simp only [List.isEmpty_iff, List.map_eq_nil_iff, List.range_eq_nil]
    omega
  rw [if_neg hobs_ne]
  have hlenobs : ((List.range K).map
      (fun i => ((chunkList slide (data.take ((K - 1) * slide + obs))).drop i).take W
        |>.flatten)).length = K := by
    simp
  have hfi : fancyIndex ((List.range K).map
      (fun i => ((chunkList slide (data.take ((K - 1) * slide + obs))).drop i).take W
        |>.flatten)) (List.range K)
      = some ((List.range K).map
        (fun i => ((chunkList slide (data.take ((K - 1) * slide + obs))).drop i).take W
          |>.flatten)) := by
    have h0 := fancyIndex_range ((List.range K).map
      (fun i => ((chunkList slide (data.take ((K - 1) * slide + obs))).drop i).take W
        |>.flatten))
    rwa [hlenobs] at h0
  obtain ⟨x, y, hx, hy, hxy⟩ := fancyIndex_append_split _
    (sliceTo (List.range K) (pyIntTrunc ((((K : Nat) : Int)) * q)))
    (sliceFrom (List.range K) (pyIntTrunc ((((K : Nat) : Int)) * q))) _
    (by rw [sliceTo_append_sliceFrom]; exact hfi)
  refine ⟨x, y, ?_, ?_, ?_⟩
  · rw [hx, hy]
  · rw [← hxy, hlenobs]
  · intro i hi
    rw [← hxy]
    have hwin : ∀ j ∈ List.range K,
        (((chunkList slide (data.take ((K - 1) * slide + obs))).drop j).take W).flatten
          = (data.drop (j * slide)).take obs := by
      intro j hj
      have hjK : j < K := List.mem_range.1 hj
      have hlen2 : (data.take ((K - 1) * slide + obs)).length = (K + W - 1) * slide := by
        rw [hlenT]
        exact hTM
      rw [chunkList_window slide hs0 j W (K + W - 1) _ hlen2 (by omega)]
      rw [List.drop_take, List.take_take]
      have hjs : j * slide ≤ (K - 1) * slide := Nat.mul_le_mul_right slide (by omega)
      have hmin : W * slide ≤ (K - 1) * slide + obs - j * slide := by
        rw [hws]
        omega
      rw [Nat.min_eq_left hmin, hws]
    rw [List.map_congr_left hwin]
    rw [List.getElem?_map, List.getElem?_range hi]
    rfl

theorem tdiv_nonpos_of_nonpos (a b : Int) (ha : a ≤ 0) (hb : 0 ≤ b) : a.tdiv b ≤ 0 := by
  have h1 : 0 ≤ (-a).tdiv b := Int.tdiv_nonneg (by omega) hb
  have h2 : (-a).tdiv b = -(a.tdiv b) := Int.neg_tdiv a b
  omega

theorem break_error_of_nonpos {α : Type} (data : List α) (obs slide : Nat) (q : ℚ)
    (rs : Bool) (perm : List Nat) (hs0 : slide ≠ 0)
    (hNO : Int.tdiv ((data.length : Int) - (obs : Int)) (slide : Int) ≤ 0) :
    isPyError (break_train_test data obs slide q rs perm) = true := by
  unfold break_train_test
  rw [if_neg hs0]
  dsimp only
  set NO := Int.tdiv ((data.length : Int) - (obs : Int)) (slide : Int) with hNOdef
  rcases hr : npReshapeRows (sliceTo data ((NO - 1) * (slide : Int) + (obs : Int)))
      (NO + ((obs / slide : Nat) : Int) - 1) slide with e | slices
  · rfl
  · dsimp only
    rw [if_neg (show ¬ ((0 : Int) < NO ∧ obs / slide = 0) by rintro ⟨hc, _⟩; omega)]
    by_cases hrs : rs = true ∧ NO < 0
    · rw [if_pos hrs]
      rfl
    · rw [if_neg hrs]
      rw [Int.toNat_of_nonpos hNO]
      rw [if_pos (by rfl)]
      rfl

/-- Claim C8 amended: when the sample sequence has at most `obs_window`
samples, `break_train_test` does not return empty train and test splits; it
raises an error (the empty window array is one-dimensional, so the
three-index selection fails; numpy IndexError).  No windows are produced,
but as a failure rather than an empty result. -/
theorem claim_C8_amended {α : Type} (data : List α) (obs slide : Nat) (q : ℚ)
    (perm : List Nat) (hs : 0 < slide) (hle : data.length ≤ obs) :
    isPyError (break_train_test data obs slide q false perm) = true := by
  apply break_error_of_nonpos data obs slide q false perm (by omega)
  apply tdiv_nonpos_of_nonpos
  · omega
  · omega

/-- Witness for C8 amended: 100 samples with the default windows 240/40. -/
theorem claim_C8_witness :
    isPyError (break_train_test (List.replicate 100 (0 : Nat)) 240 40 (1/2) false []) = true :=
  claim_C8_amended (List.replicate 100 (0 : Nat)) 240 40 (1/2) [] (by decide) (by simp)

/-- Counterexample to claim C8 as stated: on 80 samples with windows
240/40 the function raises (numpy inference reshapes to one slide chunk,
the window list is empty and one-dimensional, and indexing it with three
indices fails); it does not return the empty train and test splits the
claim describes. -/
theorem claim_C8_counterexample :
    break_train_test (List.replicate 80 (0 : Nat)) 240 40 (1/2) false []
      = .error .indexError := by decide

/-- Claim C7: whenever `slide_window` does not evenly divide `obs_window`,
`break_train_test` fails with an error for every input: with
`slide_window = 0` the window-size division raises ZeroDivisionError, and
otherwise either the reshape sizes cannot match (the trimmed length differs
from `n_slide_windows * slide_window` by `obs_window % slide_window`,
numpy ValueError) or no window is produced and the final indexing raises.
The source has no ConfigurationError class; this failure is what the spec
calls by that name. -/
theorem claim_C7 {α : Type} (data : List α) (obs slide : Nat) (q : ℚ)
    (rs : Bool) (perm : List Nat) (h : ¬ slide ∣ obs) :
    isPyError (break_train_test data obs slide q rs perm) = true := by
  by_cases hs0 : slide = 0
  · have hobs : obs ≠ 0 := by
      intro hc
      exact h (hc ▸ Dvd.intro 0 rfl)
    subst hs0
    unfold break_train_test
    rw [if_pos rfl]
    rfl
  · have hmod : obs % slide ≠ 0 := fun hc => h (Nat.dvd_of_mod_eq_zero hc)
    by_cases hpos : 1 ≤ Int.tdiv ((data.length : Int) - (obs : Int)) (slide : Int)
    · have hNnn : obs ≤ data.length := by
        by_contra hlt
        have h1 : ((data.length : Int) - (obs : Int)) ≤ 0 := by omega
        have h2 := tdiv_nonpos_of_nonpos ((data.length : Int) - (obs : Int)) (slide : Int)
          h1 (by omega)
        omega
      have hnobs : Int.tdiv ((data.length : Int) - (obs : Int)) (slide : Int)
          = (((data.length - obs) / slide : Nat) : Int) := by
        rw [show ((data.length : Int) - (obs : Int)) = (((data.length - obs : Nat)) : Int) by
          omega]
        rfl
      set K := (data.length - obs) / slide with hK
      have hK1 : 1 ≤ K := by
        rw [hnobs] at hpos
        exact_mod_cast hpos
      have hKs : K * slide ≤ data.length - obs := by
        rw [hK]
        exact Nat.div_mul_le_self ..
      have hsl : slide ≤ K * slide := Nat.le_mul_of_pos_left slide (by omega)
      unfold break_train_test
      rw [if_neg hs0]
      dsimp only
      rw [hnobs]
      have htrim : ((((K : Nat)) : Int) - 1) * (slide : Int) + (obs : Int)
          = (((K - 1) * slide + obs : Nat) : Int) := by
        push_cast [Nat.cast_sub hK1]
        ring
      rw [htrim, sliceTo_natCast]
      have hnsl : (((K : Nat)) : Int) + ((obs / slide : Nat) : Int) - 1
          = (((K + obs / slide - 1 : Nat)) : Int) := by
        push_cast [Nat.cast_sub (show 1 ≤ K + obs / slide from
          Nat.le_trans hK1 (Nat.le_add_right ..))]
        ring
      rw [hnsl]
      have hTle : (K - 1) * slide + obs ≤ data.length := by
        rw [Nat.sub_mul, one_mul]
        omega
      have hlenT : (data.take ((K - 1) * slide + obs)).length = (K - 1) * slide + obs := by
        rw [List.length_take, Nat.min_eq_left hTle]
      have hmodeq : (obs / slide) * slide + obs % slide = obs := by
        rw [Nat.mul_comm]
        exact Nat.div_add_mod obs slide
      have hcondfail : ¬ ((data.take ((K - 1) * slide + obs)).length
          = ((((K + obs / slide - 1 : Nat)) : Int)).toNat * slide) := by
        rw [hlenT, Int.toNat_natCast]
        rw [Nat.sub_mul, Nat.sub_mul, Nat.add_mul, one_mul]
        omega
      rw [npReshapeRows, if_neg (by omega), if_neg hcondfail]
      rfl
    · exact break_error_of_nonpos data obs slide q rs perm hs0 (by omega)

/-- Witness for C7 at a concrete invalid pair: 240 is not divisible by 50. -/
theorem claim_C7_witness :
    isPyError (break_train_test (List.replicate 10 (0 : Nat)) 240 50 (1/2) false []) = true :=
  claim_C7 (List.replicate 10 (0 : Nat)) 240 50 (1/2) false [] (by decide)

/-- Counterexample to claim C1 as stated: the valid pair
`obs_window = 2, slide_window = 1` on a sequence of exactly
`n = obs_window = 2` samples satisfies the claim hypotheses
(`2 % 1 = 0`, `n ≥ obs_window`) and should give
`floor((2-2)/1) = 0` windows, but the code raises (the empty window array
is one-dimensional and the three-index selection fails). -/
theorem claim_C1_counterexample :
    break_train_test ([10, 20] : List Nat) 2 1 (1/2) false [] = .error .indexError := by
  decide

/-- Witness for C1 amended at a concrete input: three samples, windows of
two sliding by one. -/
theorem claim_C1_witness :
    ∃ tr te, break_train_test ([10, 20, 30] : List Nat) 2 1 (1/2) false [] = .ok (tr, te) ∧
      (tr ++ te).length = (([10, 20, 30] : List Nat).length - 2) / 1 ∧
      ∀ i, i < (([10, 20, 30] : List Nat).length - 2) / 1 →
        (tr ++ te)[i]? = some ((([10, 20, 30] : List Nat).drop (i * 1)).take 2) :=
  claim_C1_amended [10, 20, 30] 2 1 (1/2) (by decide) (by decide) (by decide) (by decide)
